import Mathlib

/-!
Verification of the Parcoll SPMC work-stealing queues.

This file gives a shallow embedding of the sequential (single-thread)
behaviour of the two queue engines of the repository:

* `SPMCBoundedQueue` (src/spmc/const_bounded.rs): a fixed-capacity ring
  buffer with monotonic `head`/`tail` counters of word width 64
  (`LongNumber`), spilling to a `SyncBatchReceiver` sink on overflow;
* `SPMCUnboundedQueue` (src/spmc/unbounded.rs): a growable ring buffer
  with `u32` counters and versioned buffers.

Buffers are modelled as total functions `Nat → α`; a cell that the Rust
code leaves uninitialised simply holds an unspecified value.  Counters
are natural numbers together with the explicit modulus (`2 ^ 64` for the
bounded queue `LongNumber`, `2 ^ 32` for the unbounded queue `u32`);
all wrapping arithmetic is written out with `%`.  Compare-and-swap steps
are resolved the way they resolve in a data-race-free (sequential)
execution: they succeed.  Loop branches that can only repeat forever in
a sequential execution (the inconsistency-retry branches) are modelled
by an `Option` result, `none` standing for "the sequential execution
never leaves the loop / the debug assertion fails".
-/

namespace Parcoll

variable {α : Type*}

/-- Modulus of the 64-bit `LongNumber` counters of the bounded queue. -/
def M64 : Nat := 2 ^ 64

/-- Modulus of the `u32` counters of the unbounded queue. -/
def M32 : Nat := 2 ^ 32

/-- `a.wrapping_sub b` at word modulus `M` (for `a, b < M`). -/
def wsub (M a b : Nat) : Nat := (a + (M - b % M)) % M

/-- Reads `len` consecutive cells of `buf` starting at index `start`;
mirrors forming a Rust slice `&buffer[start .. start + len]`. -/
def sliceRange (buf : Nat → α) (start len : Nat) : List α :=
  (List.range len).map fun j => buf (start + j)

/-- Overwrites the `s.length` contiguous cells of `buf` that start at
index `idx`; mirrors one `ptr::copy_nonoverlapping` call. -/
def writeContig (buf : Nat → α) (idx : Nat) (s : List α) : Nat → α := fun k =>
  if idx ≤ k ∧ k < idx + s.length then s.getD (k - idx) (buf k) else buf k

/-- `copy_slice` of both queues: writes `s` into the ring buffer of
capacity `C` starting at ring index `startTail % C`, wrapping at the end
of the buffer, and returns the new tail counter
`start_tail.wrapping_add(slice.len())` at word modulus `M`. -/
def copy_slice (M C : Nat) (buf : Nat → α) (startTail : Nat) (s : List α) :
    (Nat → α) × Nat :=
  let tailIdx := startTail % C
  (if tailIdx + s.length ≤ C then
     writeContig buf tailIdx s
   else
     writeContig (writeContig buf tailIdx (s.take (C - tailIdx))) 0
       (s.drop (C - tailIdx)),
   (startTail + s.length) % M)

theorem copy_slice_snd (M C : Nat) (buf : Nat → α) (startTail : Nat)
    (s : List α) :
    (copy_slice M C buf startTail s).2 = (startTail + s.length) % M := rfl

theorem writeContig_notin (buf : Nat → α) (idx : Nat) (s : List α) (k : Nat)
    (h : k < idx ∨ idx + s.length ≤ k) : writeContig buf idx s k = buf k := by
  simp only [writeContig]
  rw [if_neg (by omega)]

theorem writeContig_in (buf : Nat → α) (idx : Nat) (s : List α) (j : Nat)
    (hj : j < s.length) (d : α) :
    writeContig buf idx s (idx + j) = s.getD j d := by
  simp only [writeContig]
  rw [if_pos (by omega : idx ≤ idx + j ∧ idx + j < idx + s.length)]
  have h1 : idx + j - idx = j := by omega
  rw [h1, List.getD_eq_getElem _ _ hj, List.getD_eq_getElem _ _ hj]

theorem copy_slice_nil (M C : Nat) (buf : Nat → α) (start : Nat)
    (hC : 0 < C) (k : Nat) :
    (copy_slice M C buf start ([] : List α)).1 k = buf k := by
  simp only [copy_slice, List.length_nil, Nat.add_zero]
  rw [if_pos (le_of_lt (Nat.mod_lt start hC))]
  exact writeContig_notin _ _ _ _ (by simpa using Nat.lt_or_ge k (start % C))

theorem sliceRange_length (buf : Nat → α) (start len : Nat) :
    (sliceRange buf start len).length = len := by
  simp [sliceRange]

theorem sliceRange_getD (buf : Nat → α) (start len j : Nat) (hj : j < len)
    (d : α) : (sliceRange buf start len).getD j d = buf (start + j) := by
  have hlen : j < (sliceRange buf start len).length := by
    rw [sliceRange_length]; exact hj
  rw [List.getD_eq_getElem _ _ hlen]
  simp [sliceRange]

/-- Writing element `j` of `s` lands at ring index `(start + j) % C`. -/
theorem copy_slice_getD (M C : Nat) (buf : Nat → α) (start : Nat) (s : List α)
    (hs : s.length ≤ C) (j : Nat) (hj : j < s.length) (d : α) :
    (copy_slice M C buf start s).1 ((start + j) % C) = s.getD j d := by
  have hC : 0 < C := by omega
  simp only [copy_slice]
  have htlt : start % C < C := Nat.mod_lt _ hC
  by_cases hcase : start % C + s.length ≤ C
  · rw [if_pos hcase]
    have hidx : (start + j) % C = start % C + j := by
      rw [← Nat.mod_add_mod]
      exact Nat.mod_eq_of_lt (by omega)
    rw [hidx, writeContig_in _ _ _ _ hj d]
  · rw [if_neg hcase]
    have hr : C - start % C < s.length := by omega
    have htk : (s.take (C - start % C)).length = C - start % C := by
      rw [List.length_take]
      exact min_eq_left (le_of_lt hr)
    have hdp : (s.drop (C - start % C)).length = s.length - (C - start % C) :=
      List.length_drop _ _
    by_cases hjr : j < C - start % C
    · have hidx : (start + j) % C = start % C + j := by
        rw [← Nat.mod_add_mod]
        exact Nat.mod_eq_of_lt (by omega)
      rw [hidx]
      rw [writeContig_notin _ 0 _ _ (Or.inr (by omega))]
      have h1 := writeContig_in buf (start % C) (s.take (C - start % C)) j
        (by omega) d
      rw [h1]
      have hj1 : j < (s.take (C - start % C)).length := by omega
      have hj2 : j < s.length := hj
      rw [List.getD_eq_getElem _ _ hj1, List.getD_eq_getElem _ _ hj2]
      exact List.getElem_take _
    · have hidx : (start + j) % C = j - (C - start % C) := by
        rw [← Nat.mod_add_mod]
        have h2 : start % C + j = C + (j - (C - start % C)) := by omega
        rw [h2, Nat.add_mod_left]
        exact Nat.mod_eq_of_lt (by omega)
      rw [hidx]
      have h3 : j - (C - start % C) = 0 + (j - (C - start % C)) := by omega
      rw [h3]
      rw [writeContig_in _ 0 (s.drop (C - start % C)) _ (by omega) d]
      have hj1 : j - (C - start % C) < (s.drop (C - start % C)).length := by
        omega
      have hj2 : j < s.length := hj
      rw [List.getD_eq_getElem _ _ hj1, List.getD_eq_getElem _ _ hj2]
      rw [List.getElem_drop]
      congr 1
      omega

/-- Ring cells not written by `copy_slice` keep their previous value. -/
theorem copy_slice_frame (M C : Nat) (buf : Nat → α) (start : Nat)
    (s : List α) (hC : 0 < C) (hs : s.length ≤ C) (k : Nat) (hk : k < C)
    (hout : ∀ j, j < s.length → k ≠ (start + j) % C) :
    (copy_slice M C buf start s).1 k = buf k := by
  simp only [copy_slice]
  have htlt : start % C < C := Nat.mod_lt _ hC
  have hmem : ∀ j, j < s.length → start % C ≤ k → k < start % C + s.length →
      k = start % C + (k - start % C) := by omega
  by_cases hcase : start % C + s.length ≤ C
  · rw [if_pos hcase]
    rcases Nat.lt_or_ge k (start % C) with h1 | h1
    · exact writeContig_notin _ _ _ _ (Or.inl h1)
    · rcases Nat.lt_or_ge k (start % C + s.length) with h2 | h2
      · exfalso
        refine hout (k - start % C) (by omega) ?_
        rw [← Nat.mod_add_mod]
        have h4 : start % C + (k - start % C) = k := by omega
        rw [h4, Nat.mod_eq_of_lt hk]
      · exact writeContig_notin _ _ _ _ (Or.inr h2)
  · rw [if_neg hcase]
    have hr : C - start % C < s.length := by omega
    have htk : (s.take (C - start % C)).length = C - start % C := by
      rw [List.length_take]
      exact min_eq_left (le_of_lt hr)
    have hdp : (s.drop (C - start % C)).length = s.length - (C - start % C) :=
      List.length_drop _ _
    rcases Nat.lt_or_ge k (s.length - (C - start % C)) with h2 | h2
    · exfalso
      refine hout (k + (C - start % C)) (by omega) ?_
      rw [← Nat.mod_add_mod]
      have h4 : start % C + (k + (C - start % C)) = C + k := by omega
      rw [h4, Nat.add_mod_left, Nat.mod_eq_of_lt hk]
    · rw [writeContig_notin _ 0 _ _ (Or.inr (by omega))]
      rcases Nat.lt_or_ge k (start % C) with h1 | h1
      · exact writeContig_notin _ _ _ _ (Or.inl h1)
      · rcases Nat.lt_or_ge k (start % C + (s.take (C - start % C)).length)
          with h3 | h3
        · exfalso
          refine hout (k - start % C) (by omega) ?_
          rw [← Nat.mod_add_mod]
          have h4 : start % C + (k - start % C) = k := by omega
          rw [h4, Nat.mod_eq_of_lt hk]
        · exact writeContig_notin _ _ _ _ (Or.inr h3)

/-- Two distinct offsets less than one revolution land on distinct ring
indices. -/
theorem ring_index_ne (C a : Nat) {i j : Nat} (h1 : i < j) (h2 : j - i < C) :
    (a + i) % C ≠ (a + j) % C := by
  intro heq
  have hmod : i ≡ j [MOD C] := Nat.ModEq.add_left_cancel' a heq
  have hdvd : C ∣ j - i := (Nat.modEq_iff_dvd' (le_of_lt h1)).mp hmod
  have := Nat.le_of_dvd (by omega) hdvd
  omega

theorem wsub_self (M a : Nat) (h : a < M) : wsub M a a = 0 := by
  unfold wsub
  rw [Nat.mod_eq_of_lt h]
  have h1 : a + (M - a) = M := by omega
  rw [h1, Nat.mod_self]

theorem wsub_add_self (M a b : Nat) (h : a + b < M) : wsub M (a + b) a = b := by
  unfold wsub
  rw [Nat.mod_eq_of_lt (by omega : a < M)]
  have h1 : a + b + (M - a) = b + M := by omega
  rw [h1, Nat.add_mod_right]
  exact Nat.mod_eq_of_lt (by omega)

theorem wadd_wsub (M a b : Nat) (ha : a < M) (hb : b < M) :
    (b + wsub M a b) % M = a := by
  unfold wsub
  rw [Nat.mod_eq_of_lt hb, Nat.add_mod_mod]
  rw [show b + (a + (M - b)) = a + M from by omega, Nat.add_mod_right]
  exact Nat.mod_eq_of_lt ha

theorem wsub_eq_zero_iff (M a b : Nat) (ha : a < M) (hb : b < M) :
    wsub M a b = 0 ↔ a = b := by
  constructor
  · intro h
    have hd : M ∣ a + (M - b % M) := Nat.dvd_of_mod_eq_zero h
    rw [Nat.mod_eq_of_lt hb] at hd
    obtain ⟨k, hk⟩ := hd
    match k with
    | 0 => rw [Nat.mul_zero] at hk; omega
    | 1 => rw [Nat.mul_one] at hk; omega
    | k + 2 =>
      exfalso
      have h2 : M * 2 ≤ M * (k + 2) := Nat.mul_le_mul_left M (by omega)
      omega
  · intro h
    subst h
    exact wsub_self M a ha

theorem eq_of_modeq_bounded (m a b : Nat) (ha1 : 0 < a) (ha2 : a ≤ m)
    (hb1 : 0 < b) (hb2 : b ≤ m) (h : a % m = b % m) : a = b := by
  by_cases h1 : a = m
  · by_cases h2 : b = m
    · rw [h1, h2]
    · rw [h1, Nat.mod_self] at h
      rw [Nat.mod_eq_of_lt (by omega)] at h
      omega
  · by_cases h2 : b = m
    · rw [h2, Nat.mod_self] at h
      rw [Nat.mod_eq_of_lt (by omega)] at h
      omega
    · rw [Nat.mod_eq_of_lt (by omega), Nat.mod_eq_of_lt (by omega)] at h
      exact h

/-- State of an `SPMCBoundedQueue<T, CAPACITY>`: the monotonic `head` and
`tail` counters (`LongNumber`, 64-bit) and the ring buffer, the latter as
a total function (non-live cells hold unspecified values). -/
structure BState (α : Type*) where
  head : Nat
  tail : Nat
  buf : Nat → α

namespace Bounded

variable {α : Type*}

/-- `SPMCBoundedQueue::len`: `tail.wrapping_sub(head)`. -/
def len (head tail : Nat) : Nat := wsub M64 tail head

/-- `SPMCBoundedQueue::push_unchecked`: write `value` at
`tail % CAPACITY`, then store `tail.wrapping_add(1)`. -/
def push_unchecked (C : Nat) (q : BState α) (v : α) : BState α :=
  ⟨q.head, (q.tail + 1) % M64, fun k => if k = q.tail % C then v else q.buf k⟩

/-- The pair `(right, left)` of slices that `handle_overflow_one` and
`handle_overflow_many` build over the stolen slots
`[head, head + NUM_VALUES_TAKEN)` with `NUM_VALUES_TAKEN = CAPACITY / 2`:
`right` starts at `head_idx`, `left` is the wrapped lower part
`[0, head_idx - NUM_VALUES_TAKEN)`. -/
def overflow_slices (C : Nat) (buf : Nat → α) (head : Nat) :
    List α × List α :=
  let headIdx := head % C
  if headIdx < C / 2 then
    (sliceRange buf headIdx (C / 2), [])
  else
    (sliceRange buf headIdx (C - headIdx), sliceRange buf 0 (headIdx - C / 2))

/-- `handle_overflow_one` in a sequential (data-race-free) execution.
`none` models a failure of the entry `debug_assert!(tail ==
head.wrapping_add(CAPACITY) && tail > head)`; the weak CAS on `head`
succeeds at once.  The sink list grows by the call
`sbr.push_many_and_one(left, right, value)`, which enqueues `left`, then
`right`, then `value`, in that order. -/
def handle_overflow_one (C : Nat) (q : BState α) (sink : List α) (v : α) :
    Option (BState α × List α) :=
  if q.tail = (q.head + C) % M64 ∧ q.head < q.tail then
    let s := overflow_slices C q.buf q.head
    some (⟨(q.head + C / 2) % M64, q.tail, q.buf⟩, sink ++ s.2 ++ s.1 ++ [v])
  else
    none

/-- `handle_overflow_many`, sequentially; the sink grows by
`sbr.push_many_and_slice(left, right, slice)`. -/
def handle_overflow_many (C : Nat) (q : BState α) (sink : List α)
    (s : List α) : Option (BState α × List α) :=
  if q.tail = (q.head + C) % M64 ∧ q.head < q.tail then
    let sl := overflow_slices C q.buf q.head
    some (⟨(q.head + C / 2) % M64, q.tail, q.buf⟩, sink ++ sl.2 ++ sl.1 ++ s)
  else
    none

/-- `producer_push`: overflow protocol when `len == CAPACITY`, otherwise
`push_unchecked`. -/
def producer_push (C : Nat) (q : BState α) (v : α) (sink : List α) :
    Option (BState α × List α) :=
  if len q.head q.tail = C then handle_overflow_one C q sink v
  else some (push_unchecked C q v, sink)

/-- `producer_maybe_push`: `Err(value)` when full, otherwise
`push_unchecked`. -/
def producer_maybe_push (C : Nat) (q : BState α) (v : α) :
    BState α × Except α Unit :=
  if len q.head q.tail = C then (q, Except.error v)
  else (push_unchecked C q v, Except.ok ())

/-- `producer_push_many`: overflow protocol when
`len + slice.len() > CAPACITY`, otherwise a bulk `copy_slice` plus a
release of the new tail. -/
def producer_push_many (C : Nat) (q : BState α) (s : List α)
    (sink : List α) : Option (BState α × List α) :=
  if len q.head q.tail + s.length > C then handle_overflow_many C q sink s
  else
    let r := copy_slice M64 C q.buf q.tail s
    some (⟨q.head, r.2, r.1⟩, sink)

/-- `producer_maybe_push_many`: `Err(())` when
`len + slice.len() > CAPACITY`, otherwise bulk copy. -/
def producer_maybe_push_many (C : Nat) (q : BState α) (s : List α) :
    BState α × Except Unit Unit :=
  if len q.head q.tail + s.length > C then (q, Except.error ())
  else
    let r := copy_slice M64 C q.buf q.tail s
    (⟨q.head, r.2, r.1⟩, Except.ok ())

/-- `consumer_len`: the retry loop, with the successive `(head, tail)`
pairs the two `Relaxed` loads of iteration `k` would observe given by
`obs k`.  `none` models running out of `fuel` without a consistent
observation. -/
def consumer_len_loop (C : Nat) (obs : Nat → Nat × Nat) :
    Nat → Nat → Option Nat
  | 0, _ => none
  | fuel + 1, k =>
    if len (obs k).1 (obs k).2 > C then consumer_len_loop C obs fuel (k + 1)
    else some (len (obs k).1 (obs k).2)

/-- `steal_into` of the bounded queue in a sequential execution.  `none`
models the `assert_eq!(dst_head, dst_tail)` debug assertion failing, or
the inconsistent-state branch (`n > CAPACITY / 2`), which in a
sequential execution would reload the same values forever.  The strong
CAS succeeds. -/
def steal_into (C : Nat) (src dst : BState α) (alwaysSteal : Bool) :
    Option (BState α × BState α × Nat) :=
  if dst.head ≠ dst.tail then none
  else
    let n := len src.head src.tail / 2
    if n > C / 2 then none
    else if (alwaysSteal = false ∧ n < 4) ∨ n = 0 then some (src, dst, 0)
    else
      let srcHeadIdx := src.head % C
      let slices : List α × List α :=
        if n ≤ C - srcHeadIdx then (sliceRange src.buf srcHeadIdx n, [])
        else (sliceRange src.buf srcHeadIdx (C - srcHeadIdx),
              sliceRange src.buf 0 (n - (C - srcHeadIdx)))
      let d1 := (copy_slice M64 C dst.buf (dst.tail % C) slices.1).1
      let d2 := (copy_slice M64 C d1 ((dst.tail + slices.1.length) % M64 % C)
        slices.2).1
      some (⟨(src.head + n) % M64, src.tail, src.buf⟩,
        ⟨dst.head, (dst.tail + n) % M64, d2⟩, n)

/-- C5: `producer_maybe_push` returns `Err(v)` exactly when
`len == CAPACITY` and `producer_maybe_push_many` returns `Err` exactly
when `len + |s| > CAPACITY`; each error case leaves head, tail and every
slot unchanged, and each success case writes the payload at the tail
position(s) and advances only the tail. -/
theorem maybe_push_spec (C : Nat) (q : BState α) (v : α) (s : List α)
    (hC : 0 < C) :
    ((producer_maybe_push C q v).2 = Except.error v ↔
      len q.head q.tail = C) ∧
    (len q.head q.tail = C → (producer_maybe_push C q v).1 = q) ∧
    (len q.head q.tail ≠ C →
      (producer_maybe_push C q v).1.head = q.head ∧
      (producer_maybe_push C q v).1.tail = (q.tail + 1) % M64 ∧
      (producer_maybe_push C q v).1.buf (q.tail % C) = v ∧
      (∀ k, k ≠ q.tail % C →
        (producer_maybe_push C q v).1.buf k = q.buf k) ∧
      (producer_maybe_push C q v).2 = Except.ok ()) ∧
    ((producer_maybe_push_many C q s).2 = Except.error () ↔
      C < len q.head q.tail + s.length) ∧
    (C < len q.head q.tail + s.length →
      (producer_maybe_push_many C q s).1 = q) ∧
    (len q.head q.tail + s.length ≤ C →
      (producer_maybe_push_many C q s).1.head = q.head ∧
      (producer_maybe_push_many C q s).1.tail = (q.tail + s.length) % M64 ∧
      (∀ j, j < s.length →
        (producer_maybe_push_many C q s).1.buf ((q.tail + j) % C) =
          s.getD j v) ∧
      (∀ k, k < C → (∀ j, j < s.length → k ≠ (q.tail + j) % C) →
        (producer_maybe_push_many C q s).1.buf k = q.buf k) ∧
      (producer_maybe_push_many C q s).2 = Except.ok ()) := by
  refine ⟨?_, ?_, ?_, ?_, ?_, ?_⟩
  · by_cases h : len q.head q.tail = C
    · simp [producer_maybe_push, h]
    · simp [producer_maybe_push, h]
  · intro h
    simp [producer_maybe_push, h]
  · intro h
    simp only [producer_maybe_push, if_neg h]
    refine ⟨?_, ?_, ?_, ?_, trivial⟩
    · simp [push_unchecked]
    · simp [push_unchecked]
    · simp [push_unchecked]
    · intro k hk
      simp [push_unchecked, hk]
  · by_cases h : len q.head q.tail + s.length > C
    · simp only [producer_maybe_push_many, if_pos h]
      simpa using h
    · simp only [producer_maybe_push_many, if_neg h]
      simp only [gt_iff_lt, not_lt] at h
      constructor
      · intro hcontra
        exact absurd hcontra (by simp)
      · intro hcontra
        omega
  · intro h
    simp [producer_maybe_push_many, h]
  · intro h
    have h' : ¬(len q.head q.tail + s.length > C) := by omega
    simp only [producer_maybe_push_many, if_neg h']
    refine ⟨trivial, ?_, ?_, ?_, trivial⟩
    · exact copy_slice_snd M64 C q.buf q.tail s
    · intro j hj
      exact copy_slice_getD M64 C q.buf q.tail s (by omega) j hj v
    · intro k hk hout
      exact copy_slice_frame M64 C q.buf q.tail s hC (by omega) k hk hout

/-- Witness for `maybe_push_spec` at `C = 4`, `head = 0`, `tail = 2`. -/
theorem maybe_push_spec_witness :
    (producer_maybe_push 4 (BState.mk 0 2 (fun i => (i : Nat))) 9).1.buf
        (2 % 4) = 9 ∧
    (producer_maybe_push_many 4 (BState.mk 0 2 (fun i => (i : Nat)))
        [7, 8]).1.tail = (2 + 2) % M64 := by
  have h := maybe_push_spec 4 (BState.mk 0 2 (fun i => (i : Nat))) 9 [7, 8]
    (by norm_num)
  refine ⟨(h.2.2.1 (by decide)).2.2.1, ?_⟩
  exact (h.2.2.2.2.2 (by decide)).2.1

/-- C8: `consumer_len` never returns a value above the capacity: an
observation with `len > CAPACITY` is detected as inconsistent and the
whole load is retried on the next observation. -/
theorem consumer_len_spec (C : Nat) (obs : Nat → Nat × Nat) :
    (∀ fuel k v, consumer_len_loop C obs fuel k = some v → v ≤ C) ∧
    (∀ fuel k, C < len (obs k).1 (obs k).2 →
      consumer_len_loop C obs (fuel + 1) k =
        consumer_len_loop C obs fuel (k + 1)) := by
  constructor
  · intro fuel
    induction fuel with
    | zero =>
      intro k v h
      simp [consumer_len_loop] at h
    | succ n ih =>
      intro k v h
      simp only [consumer_len_loop] at h
      by_cases hgt : len (obs k).1 (obs k).2 > C
      · rw [if_pos hgt] at h
        exact ih (k + 1) v h
      · rw [if_neg hgt] at h
        injection h with h'
        omega
  · intro fuel k h
    simp only [consumer_len_loop]
    rw [if_pos h]

/-- Witness for `consumer_len_spec`: the first observation has
`len = 13 > 4` and is retried; the second has `len = 2 ≤ 4`. -/
theorem consumer_len_spec_witness :
    (2 : Nat) ≤ 4 ∧
    consumer_len_loop 4 (fun k => if k = 0 then (0, 13) else (0, 2)) 2 0 =
      consumer_len_loop 4 (fun k => if k = 0 then (0, 13) else (0, 2)) 1 1 := by
  constructor
  · exact (consumer_len_spec 4
      (fun k => if k = 0 then (0, 13) else (0, 2))).1 2 0 2 (by decide)
  · exact (consumer_len_spec 4
      (fun k => if k = 0 then (0, 13) else (0, 2))).2 1 0 (by decide)

/-- The sink content the specification describes for the overflow
protocol (§4.1 step 3, §6): the `K` oldest queue elements in
producer-push (FIFO) order — the element of logical index `head + i`
living at ring index `(head + i) % C` — followed by the payload. -/
def fifo_spill (C K : Nat) (buf : Nat → α) (head : Nat)
    (payload : List α) : List α :=
  ((List.range K).map fun i => buf ((head + i) % C)) ++ payload

/-- C1: at `C = 8`, `head = 5`, `tail = 13` (full queue), the stolen
range `[5, 9)` wraps; `handle_overflow_one` hands the sink
`left ++ right ++ [payload] = [0, 5, 6, 7, 99]`, but producer-push
(FIFO) order of the four oldest elements followed by the payload is
`[5, 6, 7, 0, 99]`. -/
theorem overflow_one_wrap_not_fifo :
    (producer_push 8 (BState.mk 5 13 (fun i => (i : Nat))) 99 []).map
        Prod.snd = some [0, 5, 6, 7, 99] ∧
    fifo_spill 8 4 (fun i => (i : Nat)) 5 [99] = [5, 6, 7, 0, 99] ∧
    ([0, 5, 6, 7, 99] : List Nat) ≠ [5, 6, 7, 0, 99] := by
  refine ⟨by decide, by decide, by decide⟩

/-- C2: `producer_push_many` with `len + |s| > CAPACITY` but
`len ≠ CAPACITY` (here `C = 8`, `head = 0`, `tail = 7`, `|s| = 2`)
reaches `handle_overflow_many`, whose entry
`debug_assert!(tail == head.wrapping_add(CAPACITY) && tail > head)`
fails: the sequential model returns `none` (panic in a debug build). -/
theorem push_many_overflow_assert_fails :
    producer_push_many 8 (BState.mk 0 7 (fun i => (i : Nat))) [100, 101]
      [] = none := by
  rfl

/-- C7 counterexample: the claim fails at two explicit inputs.  First, a
batch push of the empty slice onto a full queue (`C = 8`, `len = 8`)
does not trigger the overflow protocol, so the sink grows by `0`, not by
`C/2 + |payload| = 4`.  Second, on a full queue of odd capacity `C = 5`
with `head = 3`, `tail = 8` (the stolen range wraps), a single push
spills `left ++ right ++ [v]` of length `1 + 2 + 1 = 4`, not
`C/2 + 1 = 3`: the wrap branch of `handle_overflow_one` covers
`C - C/2` slots, which exceeds `C/2` for odd `C`. -/
theorem push_full_growth_cex :
    ((producer_push_many 8 (BState.mk 0 8 (fun i => (i : Nat))) [] []).map
        (fun r => r.2.length) = some 0 ∧
      0 ≠ 8 / 2 + ([] : List Nat).length) ∧
    ((producer_push 5 (BState.mk 3 8 (fun i => (i : Nat))) 99 []).map
        (fun r => r.2.length) = some 4 ∧
      4 ≠ 5 / 2 + 1) := by
  exact ⟨⟨rfl, by decide⟩, ⟨rfl, by decide⟩⟩

theorem overflow_slices_length (C : Nat) (buf : Nat → α) (head : Nat)
    (hC : 0 < C) (hEven : C % 2 = 0) :
    (overflow_slices C buf head).1.length +
      (overflow_slices C buf head).2.length = C / 2 := by
  unfold overflow_slices
  by_cases h : head % C < C / 2
  · rw [if_pos h]
    simp [sliceRange_length]
  · rw [if_neg h]
    simp only [sliceRange_length]
    have := Nat.mod_lt head hC
    omega

/-- C7 (amended): onto a full bounded queue of even capacity, a
single-value push grows the sink by exactly `C/2 + 1` items and a batch
push of a nonempty slice grows it by exactly `C/2 + |s|` items, while
the queue keeps its buffer and tail and advances its head by `C/2`. -/
theorem push_full_sink_growth (C : Nat) (q : BState α) (hC : 0 < C)
    (hEven : C % 2 = 0) (htail : q.tail = q.head + C) (hlt : q.tail < M64) :
    (∀ (v : α) (sink : List α), ∃ q' sink',
      producer_push C q v sink = some (q', sink') ∧
      sink'.length = sink.length + C / 2 + 1 ∧
      q'.head = (q.head + C / 2) % M64 ∧ q'.tail = q.tail ∧
      q'.buf = q.buf) ∧
    (∀ (s : List α) (sink : List α), s ≠ [] → ∃ q' sink',
      producer_push_many C q s sink = some (q', sink') ∧
      sink'.length = sink.length + C / 2 + s.length ∧
      q'.head = (q.head + C / 2) % M64 ∧ q'.tail = q.tail ∧
      q'.buf = q.buf) := by
  have hfull : len q.head q.tail = C := by
    rw [htail]
    exact wsub_add_self M64 q.head C (by omega)
  have hassert : q.tail = (q.head + C) % M64 ∧ q.head < q.tail := by
    refine ⟨?_, by omega⟩
    rw [htail, Nat.mod_eq_of_lt (by omega)]
  constructor
  · intro v sink
    refine ⟨⟨(q.head + C / 2) % M64, q.tail, q.buf⟩,
      sink ++ (overflow_slices C q.buf q.head).2 ++
        (overflow_slices C q.buf q.head).1 ++ [v], ?_, ?_, rfl, rfl, rfl⟩
    · simp only [producer_push, if_pos hfull, handle_overflow_one,
        if_pos hassert]
    · have := overflow_slices_length C q.buf q.head hC hEven
      simp only [List.length_append, List.length_singleton]
      omega
  · intro s sink hs
    have hslen : 0 < s.length := List.length_pos.mpr hs
    have hcond : len q.head q.tail + s.length > C := by omega
    refine ⟨⟨(q.head + C / 2) % M64, q.tail, q.buf⟩,
      sink ++ (overflow_slices C q.buf q.head).2 ++
        (overflow_slices C q.buf q.head).1 ++ s, ?_, ?_, rfl, rfl, rfl⟩
    · simp only [producer_push_many, if_pos hcond, handle_overflow_many,
        if_pos hassert]
    · have := overflow_slices_length C q.buf q.head hC hEven
      simp only [List.length_append]
      omega

/-- C4: with an empty destination and no concurrent operations,
`steal_into` transfers exactly `n = len/2` elements — the `n` oldest, in
producer-push order — into the destination and returns `n`; it returns
`0` and leaves both queues unchanged when `n = 0`, or when `n < 4` with
the `always_steal` feature off. -/
theorem steal_into_spec (C : Nat) (src dst : BState α) (aS : Bool)
    (hC : 0 < C) (hEmpty : dst.head = dst.tail)
    (hlen : len src.head src.tail ≤ C) (hdw : dst.tail + C < M64) :
    ((aS = false ∧ len src.head src.tail / 2 < 4) ∨
        len src.head src.tail / 2 = 0 →
      steal_into C src dst aS = some (src, dst, 0)) ∧
    (¬((aS = false ∧ len src.head src.tail / 2 < 4) ∨
        len src.head src.tail / 2 = 0) →
      ∃ src' dst', steal_into C src dst aS =
          some (src', dst', len src.head src.tail / 2) ∧
        src'.head = (src.head + len src.head src.tail / 2) % M64 ∧
        src'.tail = src.tail ∧ src'.buf = src.buf ∧
        dst'.head = dst.head ∧
        dst'.tail = (dst.tail + len src.head src.tail / 2) % M64 ∧
        (∀ i, i < len src.head src.tail / 2 →
          dst'.buf ((dst.tail + i) % C) =
            src.buf ((src.head + i) % C))) := by
  have hne : ¬(dst.head ≠ dst.tail) := by simpa using hEmpty
  have hhalf : len src.head src.tail / 2 ≤ C / 2 := Nat.div_le_div_right hlen
  have hn2 : ¬(len src.head src.tail / 2 > C / 2) := by omega
  have hnC : len src.head src.tail / 2 ≤ C := by omega
  constructor
  · intro hsmall
    unfold steal_into
    rw [if_neg hne]
    dsimp only
    rw [if_neg hn2, if_pos hsmall]
  · intro hbig
    have hn0 : 0 < len src.head src.tail / 2 := by
      rcases not_or.mp hbig with ⟨_, h2⟩
      omega
    unfold steal_into
    rw [if_neg hne]
    dsimp only
    rw [if_neg hn2, if_neg hbig]
    refine ⟨_, _, rfl, rfl, rfl, rfl, rfl, rfl, ?_⟩
    intro i hi
    dsimp only
    have hsrc_pos : ∀ j, j < len src.head src.tail / 2 →
        j < C - src.head % C → (src.head + j) % C = src.head % C + j := by
      intro j _ hj2
      rw [← Nat.mod_add_mod]
      exact Nat.mod_eq_of_lt (by omega)
    by_cases hwrap : len src.head src.tail / 2 ≤ C - src.head % C
    · rw [if_pos hwrap]
      dsimp only
      rw [copy_slice_nil _ _ _ _ hC]
      have hpos : (dst.tail + i) % C = ((dst.tail % C) + i) % C :=
        (Nat.mod_add_mod _ _ _).symm
      rw [hpos]
      rw [copy_slice_getD M64 C dst.buf (dst.tail % C) _
        (by rw [sliceRange_length]; exact hnC) i
        (by rw [sliceRange_length]; exact hi) (src.buf 0)]
      rw [sliceRange_getD _ _ _ _ hi (src.buf 0)]
      rw [hsrc_pos i hi (by omega)]
    · rw [if_neg hwrap]
      dsimp only
      rw [sliceRange_length]
      have hrlt : C - src.head % C < len src.head src.tail / 2 := by omega
      have hmlt : src.head % C < C := Nat.mod_lt _ hC
      have hstart2 : (dst.tail + (C - src.head % C)) % M64 =
          dst.tail + (C - src.head % C) := Nat.mod_eq_of_lt (by omega)
      rw [hstart2]
      by_cases hir : i < C - src.head % C
      · -- written by the first copy, untouched by the second
        rw [copy_slice_frame M64 C _ _ _ hC
          (by rw [sliceRange_length]; omega) _ (Nat.mod_lt _ hC) ?hout]
        case hout =>
          intro j hj
          rw [sliceRange_length] at hj
          have h1 : ((dst.tail + (C - src.head % C)) % C + j) % C =
              (dst.tail + ((C - src.head % C) + j)) % C := by
            rw [Nat.mod_add_mod, Nat.add_assoc]
          rw [h1]
          exact ring_index_ne C dst.tail (by omega) (by omega)
        have hpos : (dst.tail + i) % C = ((dst.tail % C) + i) % C :=
          (Nat.mod_add_mod _ _ _).symm
        rw [hpos]
        rw [copy_slice_getD M64 C dst.buf (dst.tail % C) _
          (by rw [sliceRange_length]; omega) i
          (by rw [sliceRange_length]; omega) (src.buf 0)]
        rw [sliceRange_getD _ _ _ _ (by omega) (src.buf 0)]
        rw [hsrc_pos i hi (by omega)]
      · -- written by the second copy
        have hpos : (dst.tail + i) % C =
            ((dst.tail + (C - src.head % C)) % C + (i - (C - src.head % C)))
              % C := by
          rw [Nat.mod_add_mod]
          congr 1
          omega
        rw [hpos]
        rw [copy_slice_getD M64 C _ ((dst.tail + (C - src.head % C)) % C) _
          (by rw [sliceRange_length]; omega) (i - (C - src.head % C))
          (by rw [sliceRange_length]; omega) (src.buf 0)]
        rw [sliceRange_getD _ _ _ _ (by omega) (src.buf 0)]
        have hrhs : (src.head + i) % C = 0 + (i - (C - src.head % C)) := by
          rw [← Nat.mod_add_mod]
          have h2 : src.head % C + i = C + (i - (C - src.head % C)) := by
            omega
          rw [h2, Nat.add_mod_left]
          rw [Nat.mod_eq_of_lt (by omega)]
          omega
        rw [hrhs]

/-- Witness for `steal_into_spec` at `C = 8`, a source of length `8` and
an empty destination: `4` elements are stolen. -/
theorem steal_into_spec_witness :
    ∃ src' dst', steal_into 8 (BState.mk 0 8 (fun i => (i : Nat)))
        (BState.mk 0 0 (fun _ => (0 : Nat))) false =
        some (src', dst', len 0 8 / 2) ∧
      src'.head = (0 + len 0 8 / 2) % M64 ∧
      src'.tail = 8 ∧ src'.buf = (fun i => (i : Nat)) ∧
      dst'.head = 0 ∧ dst'.tail = (0 + len 0 8 / 2) % M64 ∧
      (∀ i, i < len 0 8 / 2 →
        dst'.buf ((0 + i) % 8) = (fun i => (i : Nat)) ((0 + i) % 8)) := by
  exact (steal_into_spec 8 (BState.mk 0 8 (fun i => (i : Nat)))
    (BState.mk 0 0 (fun _ => (0 : Nat))) false (by norm_num) rfl
    (by decide) (by norm_num [M64])).2 (by decide)

/-- Witness for `push_full_sink_growth` at `C = 8`, `head = 5`,
`tail = 13`. -/
theorem push_full_sink_growth_witness :
    ∃ q' sink', producer_push 8 (BState.mk 5 13 (fun i => (i : Nat))) 99
        [] = some (q', sink') ∧
      sink'.length = ([] : List Nat).length + 8 / 2 + 1 ∧
      q'.head = (5 + 8 / 2) % M64 ∧ q'.tail = 13 ∧
      q'.buf = fun i => (i : Nat) := by
  exact (push_full_sink_growth 8 (BState.mk 5 13 (fun i => (i : Nat)))
    (by norm_num) (by norm_num) (by norm_num) (by norm_num [M64])).1 99 []

end Bounded

namespace Unbounded

variable {α : Type*}

/-- `SPMCUnboundedQueue::len` for the `u32` counters. -/
def len (head tail : Nat) : Nat := wsub M32 tail head

/-- The source slices `(src_right, src_left)` that
`create_new_version_and_write_it_but_not_update_tail` builds over the
live region `[head, tail)` of the old buffer.  Ring indices are
`counter & mask` with `mask = capacity - 1` and the capacity a power of
two, written here as `counter % capacity`. -/
def src_slices (oldCap : Nat) (buf : Nat → α) (head tail : Nat) :
    List α × List α :=
  if head = tail then ([], [])
  else
    let hIdx := head % oldCap
    let tIdx := tail % oldCap
    if hIdx < tIdx then (sliceRange buf hIdx (tIdx - hIdx), [])
    else (sliceRange buf hIdx (oldCap - hIdx), sliceRange buf 0 tIdx)

/-- `create_new_version_and_write_it_but_not_update_tail`: copies
`src_right`, then `src_left`, contiguously into the freshly allocated
buffer `newBuf` starting at counter `head`, and returns the new buffer
together with the new (not yet published) tail counter. -/
def create_new_version (oldCap newCap : Nat) (oldBuf newBuf : Nat → α)
    (head tail : Nat) : (Nat → α) × Nat :=
  let s := src_slices oldCap oldBuf head tail
  let r1 := copy_slice M32 newCap newBuf head s.1
  copy_slice M32 newCap r1.1 r1.2 s.2

/-- The doubling loop at the top of `handle_overflow`:
`let mut new_capacity = capacity * 2; while new_capacity <= target
{ new_capacity *= 2 }` for `target = capacity + values.len()`.  The
`0 < cap` guard only serves termination; the source always starts from a
positive capacity. -/
def grow_capacity_loop (cap target : Nat) : Nat :=
  if h : 0 < cap ∧ cap ≤ target then grow_capacity_loop (cap * 2) target
  else cap
termination_by target + 1 - cap
decreasing_by omega

/-- The new capacity `handle_overflow` chooses, starting from
`capacity * 2`. -/
def new_capacity (cap incoming : Nat) : Nat :=
  grow_capacity_loop (cap * 2) (cap + incoming)

/-- Producer-visible state of an `SPMCUnboundedQueue`: counters, the
capacity of the producer cached version (always current), and its
buffer. -/
structure UState (α : Type*) where
  head : Nat
  tail : Nat
  cap : Nat
  buf : Nat → α

/-- `SPMCUnboundedQueue::push_unchecked`: write at `tail & mask`, then
publish `tail.wrapping_add(1)` (packed with the version id). -/
def push_unchecked (q : UState α) (v : α) : UState α :=
  ⟨q.head, (q.tail + 1) % M32, q.cap,
    fun k => if k = q.tail % q.cap then v else q.buf k⟩

/-- `handle_overflow`: pick the new capacity, build the new version,
copy the live elements across, append `values`, publish the new packed
tail, and adopt the new version. -/
def handle_overflow [Inhabited α] (q : UState α) (values : List α) :
    UState α :=
  let newCap := new_capacity q.cap values.length
  let r1 := create_new_version q.cap newCap q.buf (fun _ => default)
    q.head q.tail
  let r2 := copy_slice M32 newCap r1.1 r1.2 values
  ⟨q.head, r2.2, newCap, r2.1⟩

/-- `producer_push`: grow on `len == capacity`, else `push_unchecked`. -/
def producer_push [Inhabited α] (q : UState α) (v : α) : UState α :=
  if len q.head q.tail = q.cap then handle_overflow q [v]
  else push_unchecked q v

/-- `producer_push_many`: grow on `len + |s| > capacity`, else bulk
copy. -/
def producer_push_many [Inhabited α] (q : UState α) (s : List α) :
    UState α :=
  if len q.head q.tail + s.length > q.cap then handle_overflow q s
  else
    let r := copy_slice M32 q.cap q.buf q.tail s
    ⟨q.head, r.2, q.cap, r.1⟩

/-- `Producer::maybe_push` of the unbounded queue
(src/spmc/unbounded.rs): runs `producer_push`, then returns `Ok(())`. -/
def maybe_push [Inhabited α] (q : UState α) (v : α) :
    UState α × Except α Unit :=
  (producer_push q v, Except.ok ())

/-- `Producer::maybe_push_many` of the unbounded queue: runs
`producer_push_many`, then returns `Ok(())`. -/
def maybe_push_many [Inhabited α] (q : UState α) (s : List α) :
    UState α × Except Unit Unit :=
  (producer_push_many q s, Except.ok ())

/-- `steal_into` of the unbounded queue in a sequential execution (both
cached versions current).  `none` models the destination-empty debug
assertion failing or the inconsistent-state retry branch
(`n > capacity / 2`), which sequentially reloads the same values
forever.  The strong CAS succeeds. -/
def steal_into (src dst : UState α) (alwaysSteal : Bool) :
    Option (UState α × UState α × Nat) :=
  if dst.head ≠ dst.tail then none
  else
    let n0 := len src.head src.tail / 2
    if n0 > src.cap / 2 then none
    else if (alwaysSteal = false ∧ n0 < 4) ∨ n0 = 0 then some (src, dst, 0)
    else
      let n := min n0 dst.cap
      let srcHeadIdx := src.head % src.cap
      let slices : List α × List α :=
        if n ≤ src.cap - srcHeadIdx then
          (sliceRange src.buf srcHeadIdx n, [])
        else
          (sliceRange src.buf srcHeadIdx (src.cap - srcHeadIdx),
            sliceRange src.buf 0 (n - (src.cap - srcHeadIdx)))
      let d1 := (copy_slice M32 dst.cap dst.buf dst.tail slices.1).1
      let d2 := (copy_slice M32 dst.cap d1
        ((dst.tail + slices.1.length) % M32) slices.2).1
      some (⟨(src.head + n) % M32, src.tail, src.cap, src.buf⟩,
        ⟨dst.head, (dst.tail + n) % M32, dst.cap, d2⟩, n)

/-- C3: a version transition copies all live elements of the old buffer
into the new one in their original order — the element of logical index
`head + i` lands at slot `(head + i) % newCap`, the slot it would be
read from after masking with the new mask — and the new logical tail
before appending any payload is `head + old_len`. -/
theorem create_new_version_spec (oldCap newCap : Nat)
    (oldBuf newBuf : Nat → α) (head tail : Nat)
    (hocap : 0 < oldCap) (hdvd1 : oldCap ∣ M32) (hdvd2 : newCap ∣ M32)
    (hh : head < M32) (ht : tail < M32)
    (hlen : len head tail ≤ oldCap) (hcap : oldCap < newCap) :
    (∀ i, i < len head tail →
      (create_new_version oldCap newCap oldBuf newBuf head tail).1
          ((head + i) % newCap) = oldBuf ((head + i) % oldCap)) ∧
    (create_new_version oldCap newCap oldBuf newBuf head tail).2 =
      (head + len head tail) % M32 := by
  have hncap : 0 < newCap := by omega
  have hstep : ∀ a j : Nat, (a % M32 + j) % newCap = (a + j) % newCap := by
    intro a j
    rw [← Nat.mod_add_mod, Nat.mod_mod_of_dvd _ hdvd2, Nat.mod_add_mod]
  by_cases h0 : head = tail
  · have hlen0 : len head tail = 0 := by
      unfold len
      rw [h0]
      exact wsub_self M32 tail ht
    constructor
    · intro i hi
      rw [hlen0] at hi
      omega
    · unfold create_new_version src_slices
      rw [if_pos h0]
      dsimp only
      rw [copy_slice_snd, copy_slice_snd]
      simp only [List.length_nil, Nat.add_zero, hlen0]
      exact Nat.mod_mod_of_dvd head (dvd_refl M32)
  · have hL0 : 0 < len head tail := by
      rcases Nat.eq_zero_or_pos (len head tail) with h | h
      · exact absurd ((wsub_eq_zero_iff M32 tail head ht hh).mp h).symm h0
      · exact h
    have htail_eq : tail = (head + len head tail) % M32 := by
      unfold len
      exact (wadd_wsub M32 tail head ht hh).symm
    have htIdx : tail % oldCap = (head % oldCap + len head tail) % oldCap := by
      conv_lhs => rw [htail_eq]
      rw [Nat.mod_mod_of_dvd _ hdvd1, Nat.mod_add_mod]
    have hIlt : head % oldCap < oldCap := Nat.mod_lt _ hocap
    have htlt : tail % oldCap < oldCap := Nat.mod_lt _ hocap
    by_cases hcmp : head % oldCap < tail % oldCap
    · -- the live region does not wrap in the old buffer
      have hLr : len head tail = tail % oldCap - head % oldCap := by
        have h1 : (head % oldCap + len head tail) % oldCap =
            (head % oldCap + (tail % oldCap - head % oldCap)) % oldCap := by
          rw [← htIdx]
          rw [show head % oldCap + (tail % oldCap - head % oldCap) =
            tail % oldCap from by omega]
          exact (Nat.mod_mod_of_dvd tail (dvd_refl oldCap)).symm
        have h2 : len head tail ≡ (tail % oldCap - head % oldCap)
            [MOD oldCap] := Nat.ModEq.add_left_cancel' _ h1
        exact eq_of_modeq_bounded oldCap _ _ hL0 hlen (by omega) (by omega) h2
      constructor
      · intro i hi
        unfold create_new_version src_slices
        rw [if_neg h0]
        dsimp only
        rw [if_pos hcmp]
        dsimp only
        rw [copy_slice_nil _ _ _ _ hncap]
        rw [copy_slice_getD M32 newCap newBuf head _
          (by rw [sliceRange_length]; omega) i
          (by rw [sliceRange_length]; omega) (oldBuf 0)]
        rw [sliceRange_getD oldBuf (head % oldCap)
          (tail % oldCap - head % oldCap) i (by omega) (oldBuf 0)]
        congr 1
        rw [← Nat.mod_add_mod]
        exact (Nat.mod_eq_of_lt (by omega)).symm
      · unfold create_new_version src_slices
        rw [if_neg h0]
        dsimp only
        rw [if_pos hcmp]
        dsimp only
        rw [copy_slice_snd, copy_slice_snd]
        simp only [sliceRange_length, List.length_nil, Nat.add_zero]
        rw [Nat.mod_mod_of_dvd _ (dvd_refl M32), ← hLr]
    · -- the live region wraps (or fills the old buffer exactly)
      have hsum : len head tail =
          (oldCap - head % oldCap) + tail % oldCap := by
        have h1 : (head % oldCap + len head tail) % oldCap =
            (head % oldCap + ((oldCap - head % oldCap) + tail % oldCap))
              % oldCap := by
          rw [← htIdx]
          rw [show head % oldCap + ((oldCap - head % oldCap) +
            tail % oldCap) = oldCap + tail % oldCap from by omega]
          rw [Nat.add_mod_left]
          exact (Nat.mod_eq_of_lt htlt).symm
        have h2 : len head tail ≡
            ((oldCap - head % oldCap) + tail % oldCap) [MOD oldCap] :=
          Nat.ModEq.add_left_cancel' _ h1
        exact eq_of_modeq_bounded oldCap _ _ hL0 hlen (by omega) (by omega) h2
      constructor
      · intro i hi
        unfold create_new_version src_slices
        rw [if_neg h0]
        dsimp only
        rw [if_neg hcmp]
        dsimp only
        rw [copy_slice_snd]
        simp only [sliceRange_length]
        by_cases hir : i < oldCap - head % oldCap
        · -- written by the first copy, untouched by the second
          rw [copy_slice_frame M32 newCap _ _ _ hncap
            (by rw [sliceRange_length]; omega) _ (Nat.mod_lt _ hncap) ?hout]
          case hout =>
            intro j hj
            rw [sliceRange_length] at hj
            rw [hstep, Nat.add_assoc]
            exact ring_index_ne newCap head (by omega) (by omega)
          rw [copy_slice_getD M32 newCap newBuf head _
            (by rw [sliceRange_length]; omega) i
            (by rw [sliceRange_length]; omega) (oldBuf 0)]
          rw [sliceRange_getD oldBuf (head % oldCap)
            (oldCap - head % oldCap) i (by omega) (oldBuf 0)]
          congr 1
          rw [← Nat.mod_add_mod]
          exact (Nat.mod_eq_of_lt (by omega)).symm
        · -- written by the second copy
          have hpos : (head + i) % newCap =
              ((head + (oldCap - head % oldCap)) % M32 +
                (i - (oldCap - head % oldCap))) % newCap := by
            rw [hstep]
            congr 1
            omega
          rw [hpos]
          rw [copy_slice_getD M32 newCap _ _ _
            (by rw [sliceRange_length]; omega) (i - (oldCap - head % oldCap))
            (by rw [sliceRange_length]; omega) (oldBuf 0)]
          rw [sliceRange_getD oldBuf 0 (tail % oldCap)
            (i - (oldCap - head % oldCap)) (by omega) (oldBuf 0)]
          congr 1
          rw [← Nat.mod_add_mod]
          rw [show head % oldCap + i =
            oldCap + (i - (oldCap - head % oldCap)) from by omega]
          rw [Nat.add_mod_left]
          rw [Nat.mod_eq_of_lt
            (show i - (oldCap - head % oldCap) < oldCap from by omega)]
          omega
      · unfold create_new_version src_slices
        rw [if_neg h0]
        dsimp only
        rw [if_neg hcmp]
        dsimp only
        rw [copy_slice_snd, copy_slice_snd]
        simp only [sliceRange_length]
        rw [Nat.mod_add_mod, Nat.add_assoc, ← hsum]

/-- Witness for `create_new_version_spec`: growing from capacity `4` to
`8` with `head = 3`, `tail = 6` (the live region wraps). -/
theorem create_new_version_spec_witness :
    (∀ i, i < len 3 6 →
      (create_new_version 4 8 (fun i => (i : Nat)) (fun _ => 99) 3 6).1
          ((3 + i) % 8) = (fun i => (i : Nat)) ((3 + i) % 4)) ∧
    (create_new_version 4 8 (fun i => (i : Nat)) (fun _ => 99) 3 6).2 =
      (3 + len 3 6) % M32 := by
  exact create_new_version_spec 4 8 (fun i => (i : Nat)) (fun _ => 99) 3 6
    (by norm_num) ⟨1073741824, by norm_num [M32]⟩
    ⟨536870912, by norm_num [M32]⟩ (by norm_num [M32]) (by norm_num [M32])
    (by decide) (by norm_num)

theorem grow_capacity_loop_gt_aux :
    ∀ (fuel cap target : Nat), target + 1 - cap ≤ fuel → 0 < cap →
      target < grow_capacity_loop cap target := by
  intro fuel
  induction fuel with
  | zero =>
    intro cap target hf hc
    rw [grow_capacity_loop]
    rw [dif_neg (by omega : ¬(0 < cap ∧ cap ≤ target))]
    omega
  | succ n ih =>
    intro cap target hf hc
    rw [grow_capacity_loop]
    by_cases h : 0 < cap ∧ cap ≤ target
    · rw [dif_pos h]
      exact ih (cap * 2) target (by omega) (by omega)
    · rw [dif_neg h]
      omega

theorem grow_capacity_loop_le_aux :
    ∀ (fuel cap target : Nat), target + 1 - cap ≤ fuel →
      cap ≤ grow_capacity_loop cap target := by
  intro fuel
  induction fuel with
  | zero =>
    intro cap target hf
    rw [grow_capacity_loop]
    by_cases h : 0 < cap ∧ cap ≤ target
    · omega
    · rw [dif_neg h]
  | succ n ih =>
    intro cap target hf
    rw [grow_capacity_loop]
    by_cases h : 0 < cap ∧ cap ≤ target
    · rw [dif_pos h]
      exact le_trans (by omega) (ih (cap * 2) target (by omega))
    · rw [dif_neg h]

theorem grow_capacity_loop_pow_aux :
    ∀ (fuel cap target : Nat), target + 1 - cap ≤ fuel →
      (∃ k, cap = 2 ^ k) →
      ∃ k, grow_capacity_loop cap target = 2 ^ k := by
  intro fuel
  induction fuel with
  | zero =>
    intro cap target hf hpow
    rw [grow_capacity_loop]
    obtain ⟨k, hk⟩ := hpow
    by_cases h : 0 < cap ∧ cap ≤ target
    · omega
    · rw [dif_neg h]
      exact ⟨k, hk⟩
  | succ n ih =>
    intro cap target hf hpow
    rw [grow_capacity_loop]
    obtain ⟨k, hk⟩ := hpow
    by_cases h : 0 < cap ∧ cap ≤ target
    · rw [dif_pos h]
      exact ih (cap * 2) target (by omega) ⟨k + 1, by rw [hk, pow_succ]⟩
    · rw [dif_neg h]
      exact ⟨k, hk⟩

/-- C6: the capacity `handle_overflow` finds by repeatedly doubling the
cached capacity is a power of two, at least twice the old capacity, and
at least `old_len + incoming_len + 1`. -/
theorem new_capacity_spec (cap incoming currentLen : Nat) (hc : 0 < cap)
    (hpow : ∃ k, cap = 2 ^ k) (hlen : currentLen ≤ cap) :
    (∃ k, new_capacity cap incoming = 2 ^ k) ∧
    2 * cap ≤ new_capacity cap incoming ∧
    currentLen + incoming + 1 ≤ new_capacity cap incoming := by
  unfold new_capacity
  obtain ⟨k, hk⟩ := hpow
  refine ⟨?_, ?_, ?_⟩
  · exact grow_capacity_loop_pow_aux (cap + incoming + 1) (cap * 2)
      (cap + incoming) (by omega) ⟨k + 1, by rw [hk, pow_succ]⟩
  · have := grow_capacity_loop_le_aux (cap + incoming + 1) (cap * 2)
      (cap + incoming) (by omega)
    omega
  · have := grow_capacity_loop_gt_aux (cap + incoming + 1) (cap * 2)
      (cap + incoming) (by omega) (by omega)
    omega

/-- Witness for `new_capacity_spec`: growing from capacity `4` with `9`
incoming values yields capacity `16`. -/
theorem new_capacity_spec_witness :
    (∃ k, new_capacity 4 9 = 2 ^ k) ∧ 2 * 4 ≤ new_capacity 4 9 ∧
      4 + 9 + 1 ≤ new_capacity 4 9 :=
  new_capacity_spec 4 9 4 (by norm_num) ⟨2, by norm_num⟩ (by norm_num)

/-- C9: the unbounded producer calls `maybe_push` and `maybe_push_many`
always return `Ok(())`, for every value, slice and queue state: the push
path grows the queue instead of surfacing an error. -/
theorem maybe_push_always_ok [Inhabited α] (q : UState α) (v : α)
    (s : List α) :
    (maybe_push q v).2 = Except.ok () ∧
    (maybe_push_many q s).2 = Except.ok () :=
  ⟨rfl, rfl⟩

/-- C10: sequentially, the count a nonzero unbounded `steal_into`
returns is `min(src_len / 2, dst_capacity)`, and every returned count is
at most the capacity of the destination. -/
theorem steal_into_capacity_bound (src dst : UState α) (aS : Bool)
    (hEmpty : dst.head = dst.tail)
    (hlen : len src.head src.tail ≤ src.cap) :
    ((aS = false ∧ len src.head src.tail / 2 < 4) ∨
        len src.head src.tail / 2 = 0 →
      steal_into src dst aS = some (src, dst, 0)) ∧
    (¬((aS = false ∧ len src.head src.tail / 2 < 4) ∨
        len src.head src.tail / 2 = 0) →
      ∃ src' dst', steal_into src dst aS =
        some (src', dst', min (len src.head src.tail / 2) dst.cap)) ∧
    (∀ r, steal_into src dst aS = some r → r.2.2 ≤ dst.cap) := by
  have hne : ¬(dst.head ≠ dst.tail) := by simpa using hEmpty
  have hhalf : len src.head src.tail / 2 ≤ src.cap / 2 :=
    Nat.div_le_div_right hlen
  have hn2 : ¬(len src.head src.tail / 2 > src.cap / 2) := by omega
  refine ⟨?_, ?_, ?_⟩
  · intro hsmall
    unfold steal_into
    rw [if_neg hne]
    dsimp only
    rw [if_neg hn2, if_pos hsmall]
  · intro hbig
    unfold steal_into
    rw [if_neg hne]
    dsimp only
    rw [if_neg hn2, if_neg hbig]
    exact ⟨_, _, rfl⟩
  · intro r hr
    unfold steal_into at hr
    rw [if_neg hne] at hr
    dsimp only at hr
    rw [if_neg hn2] at hr
    by_cases hsmall : (aS = false ∧ len src.head src.tail / 2 < 4) ∨
        len src.head src.tail / 2 = 0
    · rw [if_pos hsmall] at hr
      injection hr with h
      subst h
      exact Nat.zero_le _
    · rw [if_neg hsmall] at hr
      injection hr with h
      subst h
      exact Nat.min_le_right _ _

/-- Witness for `steal_into_capacity_bound`: source of length `16`,
destination of capacity `4`: the steal is capped at `4` elements. -/
theorem steal_into_capacity_bound_witness :
    ∃ src' dst', steal_into (UState.mk 0 16 16 (fun i => (i : Nat)))
        (UState.mk 0 0 4 (fun _ => (0 : Nat))) false =
      some (src', dst', min (len 0 16 / 2) 4) := by
  exact (steal_into_capacity_bound (UState.mk 0 16 16 (fun i => (i : Nat)))
    (UState.mk 0 0 4 (fun _ => (0 : Nat))) false rfl (by decide)).2.1
    (by decide)

end Unbounded

end Parcoll
